import Mathlib

/-!
Verification of the async result-streaming demo.

The repository contains three Python asyncio generators over HTTP work:

* `fetch_url`: performs one GET, catching every exception and returning a
  result dictionary (never raising);
* `sequential_http_gen`: awaits each fetch in input order;
* `concurrent_http_gen`: launches every fetch at once and yields results in
  completion order via `asyncio.as_completed`;
* `batch_http_gen`: slices the input into `batch_size`-sized batches with
  `range(0, len(urls), batch_size)` and drains each batch with
  `as_completed` before starting the next;

plus a toy `async generator.py` with `slow_task` / `sequential_gen` /
`concurrent_gen`.

We embed this shallowly.  The HTTP client is a pure capability: `get`
returns either a response or the message of the exception that the call
would raise, and `getTime` gives the duration of the call in units of
0.05 s (so the demo delays `0.1 * (i % 3)` and `0.05` become the naturals
`2 * (i % 3)` and `1`).  A task started at logical time 0 with sleep
`delay` finishes at `delay + getTime url`; `asyncio.as_completed` is
embedded as a stable sort of the launched jobs by that completion time
(ties resolve in submission order, matching the event loop's FIFO ready
queue).  The whole-batch waiting of `batch_http_gen` is embedded by a
logical clock: every task of a batch starts when the previous batch's
`as_completed` loop finishes, i.e. at the maximum completion time of that
batch.
-/

namespace AsyncDemo

/-- Embeds the part of an `httpx.Response` that `fetch_url` reads. -/
structure Response where
  status_code : Nat
  text : String
deriving DecidableEq

/-- Embeds `httpx.AsyncClient` as a pure capability: `get url` is the value
of `await client.get(url, timeout=10.0)` — either a response or the message
of the exception the call raises — and `getTime url` is how long the call
takes, in units of 0.05 s. -/
structure AsyncClient where
  get : String → Except String Response
  getTime : String → Nat

/-- Embeds the result dictionary built by `fetch_url`.  The success branch
of the Python code omits the `error` key; we model the absent key as
`none`. -/
structure Outcome where
  url : String
  status : Option Nat
  length : Nat
  success : Bool
  error : Option String
deriving DecidableEq

/-- Embeds `fetch_url` (src/integrated_async_demo.py, lines 8-28): try the
GET and build the success dictionary; on any exception build the failure
dictionary carrying the stringified exception.  The `try/except Exception`
covers every raising construct in the body, so the embedded function is
total: it always returns an `Outcome`, never an exception.  The `delay`
argument only delays the call (`asyncio.sleep`); it does not affect the
returned value, only the completion time modelled separately. -/
def fetch_url (client : AsyncClient) (url : String) (delay : Nat) : Outcome :=
  match client.get url with
  | .ok response =>
      { url := url
        status := some response.status_code
        length := response.text.length
        success := true
        error := none }
  | .error e =>
      { url := url
        status := none
        length := 0
        success := false
        error := some e }

/-- A launched asynchronous task: the index it was submitted with, the
logical time at which it completes (sleep delay plus client call time),
and the value it produces. -/
structure Job (α : Type) where
  idx : Nat
  time : Nat
  result : α
deriving DecidableEq

/-- Comparison used to model `asyncio.as_completed`: earlier completion
time first. -/
def jobLE {α : Type} (a b : Job α) : Prop := a.time ≤ b.time

instance {α : Type} : DecidableRel (@jobLE α) := fun a b => Nat.decLe a.time b.time

instance {α : Type} : IsTotal (Job α) jobLE := ⟨fun a b => Nat.le_total a.time b.time⟩

instance {α : Type} : IsTrans (Job α) jobLE := ⟨fun _ _ _ h h' => Nat.le_trans h h'⟩

/-- Embeds `asyncio.as_completed(tasks)`: the loop observes the tasks in
completion order.  A stable sort by completion time: tasks finishing at
distinct times come out strictly ordered by finish time, ties keep
submission order (the event loop wakes equal-deadline callbacks FIFO). -/
def asCompleted {α : Type} (tasks : List (Job α)) : List (Job α) :=
  List.insertionSort jobLE tasks

/-- The per-index sleep used by `sequential_http_gen` and
`concurrent_http_gen`: `0.1 * (i % 3)` seconds, i.e. `2 * (i % 3)` units
of 0.05 s. -/
def demoDelay (i : Nat) : Nat := 2 * (i % 3)

/-- The tasks built by the loop of `concurrent_http_gen` (and, with a
constant delay, by a batch of `batch_http_gen`): task `i` fetches `urls[i]`
after sleeping `delayOf i`, hence completes at `delayOf i + getTime url`. -/
def httpJobs (client : AsyncClient) (delayOf : Nat → Nat) (urls : List String) :
    List (Job Outcome) :=
  urls.enum.map fun p =>
    { idx := p.1
      time := delayOf p.1 + client.getTime p.2
      result := fetch_url client p.2 (delayOf p.1) }

/-- Embeds `sequential_http_gen` (lines 32-40): one fetch after another,
yielded in input order. -/
def sequential_http_gen (client : AsyncClient) (urls : List String) : List Outcome :=
  urls.enum.map fun p => fetch_url client p.2 (demoDelay p.1)

/-- The order in which `concurrent_http_gen` observes its tasks:
`as_completed` over the jobs launched with the demo delays. -/
def concurrentSchedule (client : AsyncClient) (urls : List String) : List (Job Outcome) :=
  asCompleted (httpJobs client demoDelay urls)

/-- Embeds `concurrent_http_gen` (lines 44-58): launch every fetch, then
yield each result as its task completes. -/
def concurrent_http_gen (client : AsyncClient) (urls : List String) : List Outcome :=
  (concurrentSchedule client urls).map fun j => j.result

/-- The index list of `range(0, stop, bs)` for a positive step `bs`:
`[0, bs, 2*bs, ...]`, of length `⌈stop / bs⌉`. -/
def pyRangeIdx (stop bs : Nat) : List Nat :=
  (List.range ((stop + bs - 1) / bs)).map fun k => k * bs

/-- Embeds Python's `range(0, stop, step)` as used by `batch_http_gen`:
a zero step raises `ValueError`; a positive step counts up from 0 by
`step`; a negative step yields nothing (start 0 is not above the
non-negative stop). -/
def pyRange0 (stop : Nat) (step : Int) : Except String (List Nat) :=
  if step = 0 then .error "range() arg 3 must not be zero"
  else if 0 < step then .ok (pyRangeIdx stop step.toNat)
  else .ok []

/-- The tasks of one batch of `batch_http_gen`: every URL of the batch is
fetched with the fixed 0.05 s delay (1 unit). -/
def batchJobs (client : AsyncClient) (b : List String) : List (Job Outcome) :=
  httpJobs client (fun _ => 1) b

/-- The outcomes one batch of `batch_http_gen` yields, in completion
order. -/
def batchOutput (client : AsyncClient) (b : List String) : List Outcome :=
  (asCompleted (batchJobs client b)).map fun j => j.result

/-- Embeds `batch_http_gen` (lines 62-73): for `i in range(0, len(urls),
batch_size)` take the slice `urls[i : i + batch_size]`, fetch the whole
slice concurrently and yield its results in completion order before moving
to the next slice.  The `Except` layer carries the `ValueError` that
`range` raises on a zero step. -/
def batch_http_gen (client : AsyncClient) (urls : List String) (batch_size : Int) :
    Except String (List Outcome) :=
  match pyRange0 urls.length batch_size with
  | .error e => .error e
  | .ok idxs =>
      .ok (idxs.map (fun i =>
        batchOutput client ((urls.drop i).take batch_size.toNat))).flatten

/-- Embeds `slow_task` from `async generator.py`: 0.1 s of simulated work,
then the string result. -/
def slow_task (i : Nat) : String := "Task " ++ toString i ++ " done"

/-- The tasks launched by `concurrent_gen`: every `slow_task i` sleeps
0.1 s, i.e. completes at time 2. -/
def slowJobs (n : Nat) : List (Job String) :=
  (List.range n).map fun i => { idx := i, time := 2, result := slow_task i }

/-- Embeds `sequential_gen` from `async generator.py`: awaits the tasks one
after another, yielding in index order. -/
def sequential_gen (n : Nat) : List String :=
  (List.range n).map slow_task

/-- Embeds `concurrent_gen` from `async generator.py`: all tasks start at
once and are yielded as they complete. -/
def concurrent_gen (n : Nat) : List String :=
  (asCompleted (slowJobs n)).map fun j => j.result

/-! ## Timing model for the batch variant -/

/-- Duration of one task of `batch_http_gen`: the fixed 0.05 s sleep plus
the client call time. -/
def batchDur (client : AsyncClient) (u : String) : Nat := 1 + client.getTime u

/-- Fuel-driven chunking of a list into consecutive slices of `bs`
elements (the fuel only serves termination; `chunks` supplies enough). -/
def chunksF {α : Type} (bs : Nat) : Nat → List α → List (List α)
  | 0, _ => []
  | _, [] => []
  | fuel + 1, x :: xs => ((x :: xs).take bs) :: chunksF bs fuel ((x :: xs).drop bs)

/-- The consecutive batches of at most `bs` elements of `l`. -/
def chunks {α : Type} (bs : Nat) (l : List α) : List (List α) :=
  chunksF bs l.length l

/-- The start/finish times of the tasks of each batch, given the logical
start time `S` of the first batch: every task of a batch starts when the
batch's `as_completed` loop is entered and finishes `dur u` later; the
next batch starts once all of them have been awaited, i.e. at the maximum
finish time of the batch. -/
def chunkTimings (dur : String → Nat) : Nat → List (List String) → List (List (Nat × Nat))
  | _, [] => []
  | S, b :: rest =>
      (b.map fun u => (S, S + dur u)) ::
        chunkTimings dur (b.foldl (fun m u => max m (S + dur u)) S) rest

/-- The start/finish times of every task `batch_http_gen client urls bs`
runs, in input order. -/
def batchTimings (client : AsyncClient) (urls : List String) (bs : Nat) :
    List (Nat × Nat) :=
  (chunkTimings (batchDur client) 0 (chunks bs urls)).flatten

/-- How many tasks are in flight at instant `t`: started at or before `t`
and not yet finished. -/
def inFlight (T : List (Nat × Nat)) (t : Nat) : Nat :=
  (T.filter fun p => decide (p.1 ≤ t ∧ t < p.2)).length

/-- The sliding-window refill discipline: whenever some task finishes at
time `t` while some task has not yet started, a task is launched exactly
at `t`. -/
def immediateRefill (T : List (Nat × Nat)) : Prop :=
  ∀ t : Nat, (∃ p ∈ T, p.2 = t) → (∃ q ∈ T, t < q.1) → ∃ r ∈ T, r.1 = t

/-! ## Concrete clients used to instantiate the theorems -/

/-- A client for which every URL succeeds instantly. -/
def okClient : AsyncClient where
  get := fun _ => .ok { status_code := 200, text := "ok" }
  getTime := fun _ => 0

/-- A client for which exactly the URL `bad` raises an exception with
message `msg`; every other URL succeeds instantly. -/
def errClient (bad msg : String) : AsyncClient where
  get := fun u => if u = bad then .error msg else .ok { status_code := 200, text := "ok" }
  getTime := fun _ => 0

/-- A client realising the spec's completion-time scenario
`[A(delay=0.3), B(delay=0.1), C(delay=0.2)]` for the input
`["A", "B", "C"]`: with the demo sleeps `0, 0.1, 0.2` the tasks complete
at `0.3, 0.1, 0.2` seconds, i.e. logical times `6, 2, 4`. -/
def c2client : AsyncClient where
  get := fun _ => .ok { status_code := 200, text := "ok" }
  getTime := fun u => if u = "A" then 6 else 0

/-- A client giving the batch tasks of `["a", "b", "c"]` the durations
`1, 5, 1`: with `batch_size = 2` the timings are
`[(0, 1), (0, 5), (5, 6)]`. -/
def c3client : AsyncClient where
  get := fun _ => .ok { status_code := 200, text := "ok" }
  getTime := fun u => if u = "b" then 4 else 0

end AsyncDemo

namespace AsyncDemo

/-! ## Basic facts about `fetch_url` -/

theorem fetch_url_of_ok {client : AsyncClient} {url : String} {r : Response}
    (h : client.get url = .ok r) (delay : Nat) :
    fetch_url client url delay
      = { url := url, status := some r.status_code, length := r.text.length,
          success := true, error := none } := by
  unfold fetch_url
  rw [h]

theorem fetch_url_of_error {client : AsyncClient} {url : String} {e : String}
    (h : client.get url = .error e) (delay : Nat) :
    fetch_url client url delay
      = { url := url, status := none, length := 0, success := false,
          error := some e } := by
  unfold fetch_url
  rw [h]

theorem fetch_url_url (client : AsyncClient) (url : String) (delay : Nat) :
    (fetch_url client url delay).url = url := by
  unfold fetch_url
  cases client.get url <;> rfl

theorem fetch_url_success_iff (client : AsyncClient) (url : String) (delay : Nat) :
    (fetch_url client url delay).success = true ↔ (client.get url).isOk = true := by
  unfold fetch_url
  cases client.get url <;> simp [Except.isOk, Except.toBool]

/-! ## The output of the concurrent generator is a permutation of the
per-item fetches -/

theorem httpJobs_map_result (client : AsyncClient) (delayOf : Nat → Nat)
    (urls : List String) :
    (httpJobs client delayOf urls).map (fun j => j.result)
      = urls.enum.map fun p => fetch_url client p.2 (delayOf p.1) := by
  unfold httpJobs
  rw [List.map_map]
  rfl

theorem concurrent_http_gen_perm (client : AsyncClient) (urls : List String) :
    (concurrent_http_gen client urls).Perm
      (urls.enum.map fun p => fetch_url client p.2 (demoDelay p.1)) := by
  unfold concurrent_http_gen concurrentSchedule asCompleted
  rw [← httpJobs_map_result client demoDelay urls]
  exact (List.perm_insertionSort jobLE _).map _

theorem enum_map_fetch_url_map_url (client : AsyncClient) (delayOf : Nat → Nat)
    (urls : List String) :
    ((urls.enum.map fun p => fetch_url client p.2 (delayOf p.1)).map
        fun o => o.url) = urls := by
  rw [List.map_map]
  have h : ((fun o => Outcome.url o) ∘ fun p : Nat × String =>
      fetch_url client p.2 (delayOf p.1)) = Prod.snd := by
    funext p
    exact fetch_url_url client p.2 (delayOf p.1)
  rw [h, List.enum_map_snd]

/-! ## C10 and C4: the shape of the executor's results -/

/-- C10: for every input, `fetch_url` returns a record with the fields
`url`, `status`, `length` and `success`, where `url` equals the input URL;
`success` is true exactly when the underlying request raised no exception;
on success the record carries the status code and body length and no
`error` key; on failure `status` is `None`, `length` is `0` and the
`error` key holds the stringified exception. -/
theorem C10_fetch_url_outcome_shape (client : AsyncClient) (url : String) (delay : Nat) :
    (fetch_url client url delay).url = url
    ∧ ((fetch_url client url delay).success = true ↔ (client.get url).isOk = true)
    ∧ (∀ r : Response, client.get url = .ok r →
        fetch_url client url delay
          = { url := url, status := some r.status_code, length := r.text.length,
              success := true, error := none })
    ∧ (∀ e : String, client.get url = .error e →
        fetch_url client url delay
          = { url := url, status := none, length := 0, success := false,
              error := some e }) :=
  ⟨fetch_url_url client url delay,
   fetch_url_success_iff client url delay,
   fun _ hr => fetch_url_of_ok hr delay,
   fun _ he => fetch_url_of_error he delay⟩

/-- Witness for C10: the shape evaluated at one succeeding and one failing
concrete client. -/
theorem C10_witness :
    fetch_url okClient "u" 0
      = { url := "u", status := some 200, length := 2, success := true,
          error := none }
    ∧ fetch_url (errClient "u" "boom") "u" 4
      = { url := "u", status := none, length := 0, success := false,
          error := some "boom" } :=
  ⟨(C10_fetch_url_outcome_shape okClient "u" 0).2.2.1
      { status_code := 200, text := "ok" } rfl,
   (C10_fetch_url_outcome_shape (errClient "u" "boom") "u" 4).2.2.2 "boom" rfl⟩

/-- C4: the executor never throws: `fetch_url` is a total function into
`Outcome` (the `try/except Exception` covers every raising construct of
its body), on operation failure it returns a Failure outcome carrying the
error description, and consequently every value the concurrent streamer
hands to the consumer is a plain Success- or Failure-shaped Outcome — no
exception crosses the streamer boundary. -/
theorem C4_executor_never_throws (client : AsyncClient) (url : String)
    (delay : Nat) (urls : List String) (e : String)
    (he : client.get url = .error e) :
    fetch_url client url delay
      = { url := url, status := none, length := 0, success := false,
          error := some e }
    ∧ ∀ o ∈ concurrent_http_gen client urls,
        (o.success = true ∧ o.error = none)
        ∨ (o.success = false ∧ o.status = none ∧ ∃ msg, o.error = some msg) := by
  refine ⟨fetch_url_of_error he delay, fun o ho => ?_⟩
  have hmem := (concurrent_http_gen_perm client urls).mem_iff.mp ho
  obtain ⟨p, _, rfl⟩ := List.mem_map.mp hmem
  unfold fetch_url
  cases client.get p.2 with
  | ok r => exact Or.inl ⟨rfl, rfl⟩
  | error msg => exact Or.inr ⟨rfl, rfl, msg, rfl⟩

/-- Witness for C4: the failure-translation equation at a concrete failing
client. -/
theorem C4_witness :
    fetch_url (errClient "x" "timeout") "x" 2
      = { url := "x", status := none, length := 0, success := false,
          error := some "timeout" } :=
  (C4_executor_never_throws (errClient "x" "timeout") "x" 2 [] "timeout" rfl).1

/-! ## C2: unbounded mode yields in completion order -/

/-- C2: in unbounded mode (`concurrent_http_gen`, which launches every
task at once) results come out in completion order: if the task yielded at
position `p` finishes strictly earlier than the task yielded at position
`q`, then `p` comes first — regardless of the order the items were
submitted in; and the generator's output is exactly the results of that
completion-ordered schedule. -/
theorem C2_concurrent_completion_order (client : AsyncClient) (urls : List String)
    (p q : Nat) (hp : p < (concurrentSchedule client urls).length)
    (hq : q < (concurrentSchedule client urls).length)
    (ht : ((concurrentSchedule client urls).get ⟨p, hp⟩).time
            < ((concurrentSchedule client urls).get ⟨q, hq⟩).time) :
    p < q
    ∧ concurrent_http_gen client urls
        = (concurrentSchedule client urls).map fun j => j.result := by
  refine ⟨?_, rfl⟩
  by_contra hpq
  have hqp : q ≤ p := Nat.le_of_not_lt hpq
  rcases Nat.lt_or_ge q p with hlt | hge
  · have hsorted : (concurrentSchedule client urls).Sorted jobLE :=
      List.sorted_insertionSort jobLE _
    have := hsorted.rel_get_of_lt (a := ⟨q, hq⟩) (b := ⟨p, hp⟩) hlt
    exact absurd ht (Nat.not_lt.mpr this)
  · have : p = q := Nat.le_antisymm hge hqp
    subst this
    exact absurd ht (Nat.lt_irrefl _)

/-- Witness for C2: the spec's concrete scenario.  For `["A", "B", "C"]`
under `c2client` the three tasks complete at logical times 6, 2 and 4
(i.e. 0.3 s, 0.1 s, 0.2 s), the completion-time hypothesis between yield
positions 0 and 1 holds, and the yield order is B, C, A. -/
theorem C2_witness :
    (0 : Nat) < 1
    ∧ (concurrent_http_gen c2client ["A", "B", "C"]).map (fun o => o.url)
        = ["B", "C", "A"] :=
  ⟨(C2_concurrent_completion_order c2client ["A", "B", "C"] 0 1 (by decide)
      (by decide) (by decide)).1,
   by decide⟩

/-! ## The batch decomposition: `range`-indexed slices are consecutive
chunks -/

theorem chunksF_nil {α : Type} (bs fuel : Nat) : chunksF bs fuel ([] : List α) = [] := by
  cases fuel <;> rfl

theorem chunksF_congr {α : Type} {bs : Nat} (hbs : 1 ≤ bs) :
    ∀ (f₁ : Nat) (f₂ : Nat) (l : List α), l.length ≤ f₁ → l.length ≤ f₂ →
      chunksF bs f₁ l = chunksF bs f₂ l := by
  intro f₁
  induction f₁ with
  | zero =>
      intro f₂ l h₁ _
      have : l = [] := List.eq_nil_of_length_eq_zero (Nat.le_zero.mp h₁)
      subst this
      rw [chunksF_nil, chunksF_nil]
  | succ f ih =>
      intro f₂ l h₁ h₂
      cases l with
      | nil => rw [chunksF_nil, chunksF_nil]
      | cons x xs =>
          cases f₂ with
          | zero => exact absurd h₂ (by simp)
          | succ f' =>
              show _ :: _ = _ :: _
              have hd : ((x :: xs).drop bs).length ≤ f := by
                rw [List.length_drop]
                simp only [List.length_cons] at h₁ ⊢
                omega
              have hd' : ((x :: xs).drop bs).length ≤ f' := by
                rw [List.length_drop]
                simp only [List.length_cons] at h₂ ⊢
                omega
              rw [ih f' _ hd hd']

theorem chunks_nil {α : Type} (bs : Nat) : chunks bs ([] : List α) = [] := rfl

theorem chunks_cons_eq {α : Type} {bs : Nat} (hbs : 1 ≤ bs) (x : α) (xs : List α) :
    chunks bs (x :: xs) = (x :: xs).take bs :: chunks bs ((x :: xs).drop bs) := by
  show chunksF bs (xs.length + 1) (x :: xs) = _
  show _ :: chunksF bs xs.length ((x :: xs).drop bs) = _
  congr 1
  exact chunksF_congr hbs xs.length _ _ (by rw [List.length_drop]; simp; omega)
    (Nat.le_refl _)

theorem chunksF_flatten {α : Type} {bs : Nat} (hbs : 1 ≤ bs) :
    ∀ (fuel : Nat) (l : List α), l.length ≤ fuel → (chunksF bs fuel l).flatten = l := by
  intro fuel
  induction fuel with
  | zero =>
      intro l h
      have : l = [] := List.eq_nil_of_length_eq_zero (Nat.le_zero.mp h)
      subst this
      rfl
  | succ f ih =>
      intro l h
      cases l with
      | nil => rfl
      | cons x xs =>
          show ((x :: xs).take bs :: chunksF bs f ((x :: xs).drop bs)).flatten = _
          rw [List.flatten_cons, ih _ (by rw [List.length_drop]; simp at h ⊢; omega),
            List.take_append_drop]

theorem chunks_flatten {α : Type} {bs : Nat} (hbs : 1 ≤ bs) (l : List α) :
    (chunks bs l).flatten = l :=
  chunksF_flatten hbs l.length l (Nat.le_refl _)

theorem chunksF_sizes {α : Type} {bs : Nat} (hbs : 1 ≤ bs) :
    ∀ (fuel : Nat) (l : List α), l.length ≤ fuel →
      ∀ b ∈ chunksF bs fuel l, b.length ≤ bs := by
  intro fuel
  induction fuel with
  | zero =>
      intro l h b hb
      have : l = [] := List.eq_nil_of_length_eq_zero (Nat.le_zero.mp h)
      subst this
      simp [chunksF_nil] at hb
  | succ f ih =>
      intro l h b hb
      cases l with
      | nil => simp [chunksF_nil] at hb
      | cons x xs =>
          rcases List.mem_cons.mp hb with rfl | hb'
          · simpa using List.length_take_le bs (x :: xs)
          · exact ih _ (by rw [List.length_drop]; simp at h ⊢; omega) b hb'

theorem chunks_sizes {α : Type} {bs : Nat} (hbs : 1 ≤ bs) (l : List α) :
    ∀ b ∈ chunks bs l, b.length ≤ bs :=
  chunksF_sizes hbs l.length l (Nat.le_refl _)

theorem pyRangeIdx_zero {bs : Nat} (hbs : 1 ≤ bs) : pyRangeIdx 0 bs = [] := by
  unfold pyRangeIdx
  rw [Nat.zero_add, Nat.div_eq_of_lt (by omega)]
  rfl

theorem pyRangeIdx_succ {bs n : Nat} (hbs : 1 ≤ bs) (hn : 1 ≤ n) :
    pyRangeIdx n bs = 0 :: (pyRangeIdx (n - bs) bs).map (fun i => i + bs) := by
  unfold pyRangeIdx
  have hcount : (n + bs - 1) / bs = (n - bs + bs - 1) / bs + 1 := by
    rcases Nat.lt_or_ge n bs with hlt | hge
    · have hL : (n + bs - 1) / bs = 1 :=
        Nat.div_eq_of_lt_le (by omega) (by omega)
      have hR : (n - bs + bs - 1) / bs = 0 := Nat.div_eq_of_lt (by omega)
      rw [hL, hR]
    · have h2 : n + bs - 1 = (n - bs + bs - 1) + bs := by omega
      rw [h2, Nat.add_div_right _ (by omega)]
  rw [hcount, List.range_succ_eq_map]
  rw [List.map_cons, List.map_map, List.map_map]
  congr 1
  · exact Nat.zero_mul bs
  · congr 1
    funext k
    simp only [Function.comp_apply]
    exact Nat.succ_mul k bs

theorem pyRangeIdxF_slices {α : Type} {bs : Nat} (hbs : 1 ≤ bs) :
    ∀ (fuel : Nat) (l : List α), l.length ≤ fuel →
      (pyRangeIdx l.length bs).map (fun i => (l.drop i).take bs)
        = chunksF bs fuel l := by
  intro fuel
  induction fuel with
  | zero =>
      intro l h
      have : l = [] := List.eq_nil_of_length_eq_zero (Nat.le_zero.mp h)
      subst this
      rw [show ([] : List α).length = 0 from rfl, pyRangeIdx_zero hbs]
      rfl
  | succ f ih =>
      intro l h
      cases l with
      | nil =>
          rw [show ([] : List α).length = 0 from rfl, pyRangeIdx_zero hbs]
          rfl
      | cons x xs =>
          rw [show (x :: xs).length = xs.length + 1 from rfl,
            pyRangeIdx_succ hbs (by omega)]
          show _ = (x :: xs).take bs :: chunksF bs f ((x :: xs).drop bs)
          rw [List.map_cons, List.map_map]
          congr 1
          have hdlen : ((x :: xs).drop bs).length = xs.length + 1 - bs := by
            rw [List.length_drop]
            rfl
          have hih := ih ((x :: xs).drop bs)
            (by rw [hdlen]; simp only [List.length_cons] at h; omega)
          rw [hdlen] at hih
          rw [← hih]
          apply List.map_congr_left
          intro i _
          simp only [Function.comp_apply]
          rw [List.drop_drop, Nat.add_comm bs i]

theorem pyRangeIdx_slices_eq_chunks {α : Type} {bs : Nat} (hbs : 1 ≤ bs)
    (l : List α) :
    (pyRangeIdx l.length bs).map (fun i => (l.drop i).take bs) = chunks bs l :=
  pyRangeIdxF_slices hbs l.length l (Nat.le_refl _)

theorem batch_http_gen_eq_chunks (client : AsyncClient) (urls : List String)
    {bs : Int} (hbs : 1 ≤ bs) :
    batch_http_gen client urls bs
      = .ok ((chunks bs.toNat urls).map (batchOutput client)).flatten := by
  have hne : bs ≠ 0 := by omega
  have hpos : (0 : Int) < bs := by omega
  have hbn : 1 ≤ bs.toNat := by omega
  unfold batch_http_gen pyRange0
  rw [if_neg hne, if_pos hpos]
  show Except.ok ((pyRangeIdx urls.length bs.toNat).map
      (fun i => batchOutput client ((urls.drop i).take bs.toNat))).flatten = _
  have : (pyRangeIdx urls.length bs.toNat).map
        (fun i => batchOutput client ((urls.drop i).take bs.toNat))
      = ((pyRangeIdx urls.length bs.toNat).map
          (fun i => (urls.drop i).take bs.toNat)).map (batchOutput client) := by
    rw [List.map_map]
    rfl
  rw [this, pyRangeIdx_slices_eq_chunks hbn]

/-! ## C1: exactly one Outcome per work item -/

theorem batchOutput_perm (client : AsyncClient) (b : List String) :
    (batchOutput client b).Perm (b.enum.map fun p => fetch_url client p.2 1) := by
  unfold batchOutput batchJobs asCompleted
  rw [← httpJobs_map_result client (fun _ => 1) b]
  exact (List.perm_insertionSort jobLE _).map _

theorem batchOutput_map_url_perm (client : AsyncClient) (b : List String) :
    ((batchOutput client b).map fun o => o.url).Perm b := by
  have h := ((batchOutput_perm client b).map fun o => o.url)
  rwa [enum_map_fetch_url_map_url client (fun _ => 1) b] at h

/-- C1: for every input sequence and every concurrency limit — unbounded
(`concurrent_http_gen`, `concurrent_gen`) or bounded `L ≥ 1`
(`batch_http_gen`) — the streamer yields exactly `len(items)` Outcomes and
the multiset of yielded identifiers is exactly the multiset of input
identifiers: each input item's identifier appears exactly once, no
duplicates, no drops. -/
theorem C1_each_item_exactly_once (client : AsyncClient) (urls : List String)
    (n : Nat) (bs : Int) (hbs : 1 ≤ bs) :
    ((concurrent_http_gen client urls).length = urls.length
      ∧ ((concurrent_http_gen client urls).map fun o => o.url).Perm urls)
    ∧ (∃ outs : List Outcome, batch_http_gen client urls bs = Except.ok outs
        ∧ outs.length = urls.length
        ∧ (outs.map fun o => o.url).Perm urls)
    ∧ ((concurrent_gen n).length = n
      ∧ (concurrent_gen n).Perm ((List.range n).map slow_task)) := by
  have hbn : 1 ≤ bs.toNat := by omega
  refine ⟨⟨?_, ?_⟩, ?_, ?_⟩
  · rw [(concurrent_http_gen_perm client urls).length_eq]
    simp
  · have h := ((concurrent_http_gen_perm client urls).map fun o => o.url)
    rwa [enum_map_fetch_url_map_url client demoDelay urls] at h
  · refine ⟨((chunks bs.toNat urls).map (batchOutput client)).flatten,
      batch_http_gen_eq_chunks client urls hbs, ?_, ?_⟩
    · have hperm : ((((chunks bs.toNat urls).map (batchOutput client)).flatten).map
            fun o => o.url).Perm urls := by
        rw [List.map_flatten, List.map_map]
        have hcong : (((chunks bs.toNat urls).map
              ((List.map fun o => o.url) ∘ batchOutput client)).flatten).Perm
            ((chunks bs.toNat urls).flatten) := by
          apply List.Perm.flatten_congr
          rw [List.forall₂_map_left_iff, List.forall₂_same]
          intro b _
          exact batchOutput_map_url_perm client b
        rwa [chunks_flatten hbn urls] at hcong
      have hlen := hperm.length_eq
      rw [List.length_map] at hlen
      -- goal is the length equation; reuse below for the perm conjunct
      exact hlen
    · have hperm : ((((chunks bs.toNat urls).map (batchOutput client)).flatten).map
            fun o => o.url).Perm urls := by
        rw [List.map_flatten, List.map_map]
        have hcong : (((chunks bs.toNat urls).map
              ((List.map fun o => o.url) ∘ batchOutput client)).flatten).Perm
            ((chunks bs.toNat urls).flatten) := by
          apply List.Perm.flatten_congr
          rw [List.forall₂_map_left_iff, List.forall₂_same]
          intro b _
          exact batchOutput_map_url_perm client b
        rwa [chunks_flatten hbn urls] at hcong
      exact hperm
  · constructor
    · unfold concurrent_gen asCompleted slowJobs
      rw [List.length_map, List.length_insertionSort, List.length_map,
        List.length_range]
    · unfold concurrent_gen asCompleted slowJobs
      have h := ((List.perm_insertionSort jobLE
        ((List.range n).map fun i =>
          { idx := i, time := 2, result := slow_task i : Job String })).map
            fun j => j.result)
      have hfun : ((fun j : Job String => j.result) ∘ fun i =>
          ({ idx := i, time := 2, result := slow_task i } : Job String)) = slow_task := by
        funext i
        rfl
      rw [List.map_map, hfun] at h
      exact h

/-- Witness for C1 at a concrete run: three items, bounded limit 2. -/
theorem C1_witness :
    (1 : Int) ≤ 2
    ∧ (((concurrent_http_gen c2client ["A", "B", "C"]).length = 3
      ∧ ((concurrent_http_gen c2client ["A", "B", "C"]).map fun o => o.url).Perm
          ["A", "B", "C"])
    ∧ (∃ outs : List Outcome,
        batch_http_gen c2client ["A", "B", "C"] 2 = Except.ok outs
        ∧ outs.length = 3
        ∧ (outs.map fun o => o.url).Perm ["A", "B", "C"])
    ∧ ((concurrent_gen 2).length = 2
      ∧ (concurrent_gen 2).Perm ((List.range 2).map slow_task))) :=
  ⟨by decide, C1_each_item_exactly_once c2client ["A", "B", "C"] 2 2 (by decide)⟩

/-! ## C8: the empty input -/

/-- C8: on an empty item sequence every streamer variant — sequential,
concurrent and batch (under a valid limit `L ≥ 1`), in both demo files —
yields zero Outcomes and terminates at once; the result does not depend on
the client (no fetch is ever evaluated) and no concurrency slot is ever
occupied (`inFlight` is 0 at every instant). -/
theorem C8_empty_input (client : AsyncClient) (bs : Int) (hbs : 1 ≤ bs) (t : Nat) :
    sequential_http_gen client [] = []
    ∧ concurrent_http_gen client [] = []
    ∧ batch_http_gen client [] bs = Except.ok []
    ∧ sequential_gen 0 = []
    ∧ concurrent_gen 0 = []
    ∧ inFlight (batchTimings client [] bs.toNat) t = 0 := by
  refine ⟨rfl, rfl, ?_, rfl, rfl, rfl⟩
  rw [batch_http_gen_eq_chunks client [] hbs, chunks_nil]
  rfl

/-- Witness for C8 at the default batch size 5. -/
theorem C8_witness :
    sequential_http_gen okClient [] = []
    ∧ concurrent_http_gen okClient [] = []
    ∧ batch_http_gen okClient [] 5 = Except.ok []
    ∧ sequential_gen 0 = []
    ∧ concurrent_gen 0 = []
    ∧ inFlight (batchTimings okClient [] 5) 0 = 0 :=
  C8_empty_input okClient 5 (by decide) 0

/-! ## C5: there is no fail-fast validation of the concurrency limit -/

/-- C5 counterexample: the claim says every bounded limit below 1 fails
fast with a ConfigurationError before launching anything.  At the concrete
input `batch_size = -1` with two items, the generator raises nothing at
all: it yields zero Outcomes and terminates normally. -/
theorem C5_counterexample :
    (-1 : Int) < 1
    ∧ batch_http_gen okClient ["a", "b"] (-1) = Except.ok []
    ∧ ¬ ∃ e, batch_http_gen okClient ["a", "b"] (-1) = Except.error e := by
  refine ⟨by decide, rfl, ?_⟩
  intro h
  obtain ⟨e, he⟩ := h
  rw [show batch_http_gen okClient ["a", "b"] (-1) = Except.ok [] from rfl] at he
  exact Except.noConfusion he

/-- C5 amended: `batch_http_gen` performs no validation of the limit.
With `batch_size = 0` the first pull raises `range`'s
`ValueError: range() arg 3 must not be zero` (for every input, so the run
errors rather than yielding Outcomes — but this is a `ValueError` from
`range` at first iteration, not a ConfigurationError at invocation); with
any `batch_size < 0` the `range` is empty, so the streamer silently yields
zero Outcomes and never signals misconfiguration. -/
theorem C5_no_fail_fast_validation (client : AsyncClient) (urls : List String)
    (bs : Int) (hneg : bs < 0) :
    batch_http_gen client urls 0 = Except.error "range() arg 3 must not be zero"
    ∧ batch_http_gen client urls bs = Except.ok [] := by
  constructor
  · rfl
  · unfold batch_http_gen pyRange0
    rw [if_neg (by omega : bs ≠ 0), if_neg (by omega : ¬(0 : Int) < bs)]
    rfl

/-- Witness for C5's amended statement at `batch_size = -2`. -/
theorem C5_witness :
    batch_http_gen okClient ["a", "b"] 0
        = Except.error "range() arg 3 must not be zero"
    ∧ batch_http_gen okClient ["a", "b"] (-2) = Except.ok [] :=
  C5_no_fail_fast_validation okClient ["a", "b"] (-2) (by decide)

/-! ## C6: a single failure is isolated -/

theorem fetch_url_success_eq (client : AsyncClient) (url : String) (delay : Nat) :
    (fetch_url client url delay).success = (client.get url).isOk := by
  unfold fetch_url
  cases client.get url <;> rfl

theorem countP_eq_one_of_unique {α : Type} (p : α → Bool) :
    ∀ (l : List α) (k : Nat) (hk : k < l.length),
      p (l.get ⟨k, hk⟩) = true →
      (∀ j (hj : j < l.length), j ≠ k → p (l.get ⟨j, hj⟩) = false) →
      l.countP p = 1 := by
  intro l
  induction l with
  | nil =>
      intro k hk
      exact absurd hk (by simp)
  | cons a t ih =>
      intro k hk hpk hothers
      rw [List.countP_cons]
      cases k with
      | zero =>
          have hpa : p a = true := hpk
          have ht : t.countP p = 0 := by
            rw [List.countP_eq_zero]
            intro x hx
            obtain ⟨⟨j, hj⟩, hget⟩ := List.mem_iff_get.mp hx
            have hfalse := hothers (j + 1)
              (by simp only [List.length_cons]; omega) (by omega)
            have : p x = false := by
              rw [← hget]
              exact hfalse
            simp [this]
          rw [ht, if_pos hpa]
      | succ k' =>
          have hpa : p a = false :=
            hothers 0 (by simp only [List.length_cons]; omega) (by omega)
          have hk' : k' < t.length := by
            simp only [List.length_cons] at hk
            omega
          have ht : t.countP p = 1 := by
            refine ih k' hk' hpk ?_
            intro j hj hne
            exact hothers (j + 1) (by simp only [List.length_cons]; omega)
              (by omega)
          rw [ht, if_neg (by simp [hpa])]

theorem concurrent_countP_eq (client : AsyncClient) (urls : List String)
    (p : Outcome → Bool) :
    (concurrent_http_gen client urls).countP p
      = urls.countP fun u => p (fetch_url client u 0) := by
  rw [(concurrent_http_gen_perm client urls).countP_eq]
  rw [List.countP_map]
  have hsnd : urls.countP (fun u => p (fetch_url client u 0))
      = (urls.enum.map Prod.snd).countP (fun u => p (fetch_url client u 0)) := by
    rw [List.enum_map_snd]
  rw [hsnd, List.countP_map]
  apply List.countP_congr
  intro pr _
  show (p (fetch_url client pr.2 (demoDelay pr.1)) = true)
    ↔ (p (fetch_url client pr.2 0) = true)
  have hval : ∀ d d' : Nat, fetch_url client pr.2 d = fetch_url client pr.2 d' := by
    intro d d'
    unfold fetch_url
    cases client.get pr.2 <;> rfl
  rw [hval (demoDelay pr.1) 0]

/-- C6: if the executor call fails for item `k` (and succeeds for every
other item), the stream still yields one Outcome per item; exactly one of
them is a Failure; that Failure carries `k`'s identifier and the error
description; and every Failure in the stream is `k`'s — all other items
yield their own Success Outcome, the failure neither aborts nor drops nor
alters them. -/
theorem C6_failure_isolation (client : AsyncClient) (urls : List String)
    (k : Nat) (hk : k < urls.length) (e : String)
    (he : client.get (urls.get ⟨k, hk⟩) = .error e)
    (hok : ∀ j (hj : j < urls.length), j ≠ k →
      (client.get (urls.get ⟨j, hj⟩)).isOk = true) :
    (concurrent_http_gen client urls).length = urls.length
    ∧ (concurrent_http_gen client urls).countP (fun o => !o.success) = 1
    ∧ (∃ o ∈ concurrent_http_gen client urls,
        o.url = urls.get ⟨k, hk⟩ ∧ o.success = false ∧ o.error = some e)
    ∧ ∀ o ∈ concurrent_http_gen client urls,
        o.success = false → o.url = urls.get ⟨k, hk⟩ ∧ o.error = some e := by
  have hperm := concurrent_http_gen_perm client urls
  refine ⟨?_, ?_, ?_, ?_⟩
  · rw [hperm.length_eq]
    simp
  · rw [concurrent_countP_eq]
    refine countP_eq_one_of_unique _ urls k hk ?_ ?_
    · rw [fetch_url_success_eq, he]
      rfl
    · intro j hj hne
      rw [fetch_url_success_eq, hok j hj hne]
      rfl
  · refine ⟨fetch_url client (urls.get ⟨k, hk⟩) (demoDelay k), ?_, ?_, ?_, ?_⟩
    · apply hperm.mem_iff.mpr
      apply List.mem_map.mpr
      refine ⟨(k, urls.get ⟨k, hk⟩), ?_, rfl⟩
      have hkE : k < urls.enum.length := by
        rw [List.enum_length]
        exact hk
      have hgetElem := List.getElem_enum urls k hkE
      have hge : urls.get ⟨k, hk⟩ = urls[k] := List.get_eq_getElem urls ⟨k, hk⟩
      rw [hge, ← hgetElem]
      exact List.getElem_mem hkE
    · rw [fetch_url_of_error he]
    · rw [fetch_url_of_error he]
    · rw [fetch_url_of_error he]
  · intro o ho hfail
    have hmem := hperm.mem_iff.mp ho
    obtain ⟨pr, hpr, rfl⟩ := List.mem_map.mp hmem
    obtain ⟨i, hiE, hget⟩ := List.mem_iff_getElem.mp hpr
    have hiu : i < urls.length := by
      rw [List.enum_length] at hiE
      exact hiE
    have hpr2 : pr = (i, urls.get ⟨i, hiu⟩) := by
      rw [← hget, List.getElem_enum]
      rfl
    subst hpr2
    by_cases hik : i = k
    · subst hik
      have heq : urls.get ⟨i, hiu⟩ = urls.get ⟨i, hk⟩ := rfl
      rw [heq] at hfail ⊢
      rw [fetch_url_of_error he]
      exact ⟨rfl, rfl⟩
    · exfalso
      have hsucc := fetch_url_success_eq client (urls.get ⟨i, hiu⟩) (demoDelay i)
      rw [hok i hiu hik] at hsucc
      rw [hfail] at hsucc
      exact Bool.noConfusion hsucc

/-- Witness for C6: three items, the middle one failing. -/
theorem C6_witness :
    (concurrent_http_gen (errClient "B" "oops") ["A", "B", "C"]).length = 3
    ∧ (concurrent_http_gen (errClient "B" "oops") ["A", "B", "C"]).countP
        (fun o => !o.success) = 1
    ∧ (∃ o ∈ concurrent_http_gen (errClient "B" "oops") ["A", "B", "C"],
        o.url = "B" ∧ o.success = false ∧ o.error = some "oops")
    ∧ ∀ o ∈ concurrent_http_gen (errClient "B" "oops") ["A", "B", "C"],
        o.success = false → o.url = "B" ∧ o.error = some "oops" :=
  C6_failure_isolation (errClient "B" "oops") ["A", "B", "C"] 1 (by decide)
    "oops" rfl (by decide)

/-! ## The timing model of the batch variant -/

theorem foldl_max_ge_init {α : Type} (g : α → Nat) :
    ∀ (l : List α) (a : Nat), a ≤ l.foldl (fun m u => max m (g u)) a := by
  intro l
  induction l with
  | nil => intro a; exact Nat.le_refl a
  | cons x xs ih =>
      intro a
      exact Nat.le_trans (Nat.le_max_left a (g x)) (ih (max a (g x)))

theorem foldl_max_ge_mem {α : Type} (g : α → Nat) :
    ∀ (l : List α) (a : Nat) (x : α), x ∈ l →
      g x ≤ l.foldl (fun m u => max m (g u)) a := by
  intro l
  induction l with
  | nil => intro a x hx; exact absurd hx (List.not_mem_nil x)
  | cons y ys ih =>
      intro a x hx
      rcases List.mem_cons.mp hx with rfl | hx'
      · exact Nat.le_trans (Nat.le_max_right a (g x))
          (foldl_max_ge_init g ys (max a (g x)))
      · exact ih (max a (g y)) x hx'

theorem chunkTimings_fst_ge (dur : String → Nat) :
    ∀ (cs : List (List String)) (S : Nat),
      ∀ p ∈ (chunkTimings dur S cs).flatten, S ≤ p.1 := by
  intro cs
  induction cs with
  | nil => intro S p hp; exact absurd hp (List.not_mem_nil p)
  | cons b rest ih =>
      intro S p hp
      rw [show chunkTimings dur S (b :: rest)
          = (b.map fun u => (S, S + dur u)) ::
              chunkTimings dur (b.foldl (fun m u => max m (S + dur u)) S) rest
        from rfl, List.flatten_cons, List.mem_append] at hp
      rcases hp with hp1 | hp2
      · obtain ⟨u, _, rfl⟩ := List.mem_map.mp hp1
        exact Nat.le_refl S
      · have hS := ih (b.foldl (fun m u => max m (S + dur u)) S) p hp2
        exact Nat.le_trans (foldl_max_ge_init (fun u => S + dur u) b S) hS

theorem chunkTimings_snd_le_next (dur : String → Nat) (S : Nat) (b : List String)
    (p : Nat × Nat) (hp : p ∈ b.map fun u => (S, S + dur u)) :
    p.2 ≤ b.foldl (fun m u => max m (S + dur u)) S := by
  obtain ⟨u, hu, rfl⟩ := List.mem_map.mp hp
  exact foldl_max_ge_mem (fun u => S + dur u) b S u hu

theorem chunkTimings_inFlight_le (dur : String → Nat) (L : Nat) :
    ∀ (cs : List (List String)) (S : Nat), (∀ b ∈ cs, b.length ≤ L) →
      ∀ t, inFlight (chunkTimings dur S cs).flatten t ≤ L := by
  intro cs
  induction cs with
  | nil =>
      intro S _ t
      exact Nat.zero_le L
  | cons b rest ih =>
      intro S hlen t
      rw [show chunkTimings dur S (b :: rest)
          = (b.map fun u => (S, S + dur u)) ::
              chunkTimings dur (b.foldl (fun m u => max m (S + dur u)) S) rest
        from rfl, List.flatten_cons]
      unfold inFlight
      rw [List.filter_append, List.length_append]
      by_cases hc : ((b.map fun u => (S, S + dur u)).filter
          fun p => decide (p.1 ≤ t ∧ t < p.2)).length = 0
      · rw [hc, Nat.zero_add]
        exact ih _ (fun b' hb' => hlen b' (List.mem_cons_of_mem b hb')) t
      · have hex : ∃ p ∈ b.map fun u => (S, S + dur u),
            (decide (p.1 ≤ t ∧ t < p.2)) = true := by
          by_contra hno
          push_neg at hno
          have : ((b.map fun u => (S, S + dur u)).filter
              fun p => decide (p.1 ≤ t ∧ t < p.2)) = [] := by
            rw [List.filter_eq_nil_iff]
            intro p hp
            intro hdec
            exact absurd hdec (by simpa using hno p hp)
          rw [this] at hc
          exact hc rfl
        obtain ⟨p, hpmem, hpdec⟩ := hex
        have hpt : p.1 ≤ t ∧ t < p.2 := of_decide_eq_true hpdec
        have htlt : t < b.foldl (fun m u => max m (S + dur u)) S :=
          Nat.lt_of_lt_of_le hpt.2 (chunkTimings_snd_le_next dur S b p hpmem)
        have hrest : ((chunkTimings dur
            (b.foldl (fun m u => max m (S + dur u)) S) rest).flatten.filter
              fun p => decide (p.1 ≤ t ∧ t < p.2)) = [] := by
          rw [List.filter_eq_nil_iff]
          intro q hq hdec
          have hq1 : b.foldl (fun m u => max m (S + dur u)) S ≤ q.1 :=
            chunkTimings_fst_ge dur rest _ q hq
          have := (of_decide_eq_true hdec).1
          omega
        rw [hrest]
        simp only [List.length_nil, Nat.add_zero]
        calc ((b.map fun u => (S, S + dur u)).filter
              fun p => decide (p.1 ≤ t ∧ t < p.2)).length
            ≤ (b.map fun u => (S, S + dur u)).length := List.length_filter_le _ _
          _ = b.length := List.length_map _ _
          _ ≤ L := hlen b (List.mem_cons_self b rest)

theorem chunkTimings_consecutive (dur : String → Nat) :
    ∀ (cs : List (List String)) (S : Nat) (i : Nat)
      (hi : i + 1 < (chunkTimings dur S cs).length)
      (p q : Nat × Nat),
      p ∈ (chunkTimings dur S cs).get ⟨i, by omega⟩ →
      q ∈ (chunkTimings dur S cs).get ⟨i + 1, hi⟩ →
      p.2 ≤ q.1 := by
  intro cs
  induction cs with
  | nil =>
      intro S i hi
      exact absurd hi (by simp [chunkTimings])
  | cons b rest ih =>
      intro S i hi p q hp hq
      cases i with
      | zero =>
          have hp' : p ∈ b.map fun u => (S, S + dur u) := hp
          have hq' : q ∈ (chunkTimings dur
              (b.foldl (fun m u => max m (S + dur u)) S) rest).get
                ⟨0, by
                  have := hi
                  simp only [show chunkTimings dur S (b :: rest)
                      = (b.map fun u => (S, S + dur u)) ::
                          chunkTimings dur
                            (b.foldl (fun m u => max m (S + dur u)) S) rest
                    from rfl, List.length_cons] at this
                  omega⟩ := hq
          have hqflat : q ∈ (chunkTimings dur
              (b.foldl (fun m u => max m (S + dur u)) S) rest).flatten := by
            rw [List.mem_flatten]
            refine ⟨_, ?_, hq'⟩
            exact List.get_mem _ _ _
          have h1 := chunkTimings_snd_le_next dur S b p hp'
          have h2 := chunkTimings_fst_ge dur rest _ q hqflat
          exact Nat.le_trans h1 h2
      | succ i' =>
          have hi' : i' + 1 < (chunkTimings dur
              (b.foldl (fun m u => max m (S + dur u)) S) rest).length := by
            have := hi
            simp only [show chunkTimings dur S (b :: rest)
                = (b.map fun u => (S, S + dur u)) ::
                    chunkTimings dur
                      (b.foldl (fun m u => max m (S + dur u)) S) rest
              from rfl, List.length_cons] at this
            omega
          exact ih _ i' hi' p q hp hq

/-! ## C3: bounded concurrency — the bound holds, the sliding-window
refill does not -/

/-- C3 counterexample: the claimed sliding-window refill ("each time one
in-flight operation completes the streamer immediately launches the next
not-yet-started item") is false at a concrete input.  Under `c3client`
the three batch tasks of `["a", "b", "c"]` with `batch_size = 2` run at
`[(0, 1), (0, 5), (5, 6)]`: task "a" completes at time 1 while task "c"
has not started, yet nothing is launched at time 1 — "c" waits for the
whole first batch to drain at time 5. -/
theorem C3_counterexample :
    ¬ immediateRefill (batchTimings c3client ["a", "b", "c"] 2) := by
  intro h
  have h1 := h 1 ⟨(0, 1), by decide, rfl⟩ ⟨(5, 6), by decide, by decide⟩
  exact absurd h1 (by decide)

/-- C3 amended: with a configured limit `L ≥ 1`, at most `L` operations
are in flight at any instant; but the admission scheme is batch-wise, not
sliding-window: the tasks of batch `i + 1` are launched only after every
task of batch `i` has completed (each later batch's start times dominate
all earlier finish times), rather than one new launch per completion. -/
theorem C3_bounded_concurrency_batchwise (client : AsyncClient)
    (urls : List String) (bs : Nat) (hbs : 1 ≤ bs) :
    (∀ t, inFlight (batchTimings client urls bs) t ≤ bs)
    ∧ ∀ (i : Nat)
        (hi : i + 1 < (chunkTimings (batchDur client) 0 (chunks bs urls)).length)
        (p q : Nat × Nat),
        p ∈ (chunkTimings (batchDur client) 0 (chunks bs urls)).get ⟨i, by omega⟩ →
        q ∈ (chunkTimings (batchDur client) 0 (chunks bs urls)).get ⟨i + 1, hi⟩ →
        p.2 ≤ q.1 := by
  constructor
  · intro t
    exact chunkTimings_inFlight_le (batchDur client) bs (chunks bs urls) 0
      (chunks_sizes hbs urls) t
  · intro i hi p q hp hq
    exact chunkTimings_consecutive (batchDur client) (chunks bs urls) 0 i hi p q hp hq

/-- Witness for C3's amended statement: the concrete batch run of
`["a", "b", "c"]` with limit 2 — at instant 0 at most 2 tasks are in
flight, and the first-batch finish `(0, 5)` precedes the second-batch
start `(5, 6)`. -/
theorem C3_witness :
    inFlight (batchTimings c3client ["a", "b", "c"] 2) 0 ≤ 2
    ∧ ((0, 5) : Nat × Nat).2 ≤ ((5, 6) : Nat × Nat).1 :=
  ⟨(C3_bounded_concurrency_batchwise c3client ["a", "b", "c"] 2 (by decide)).1 0,
   (C3_bounded_concurrency_batchwise c3client ["a", "b", "c"] 2 (by decide)).2 0
     (by decide) (0, 5) (5, 6) (by decide) (by decide)⟩

/-! ## C9: batch boundaries -/

/-- C9: `batch_http_gen` with batch size `B ≥ 1` partitions the input into
consecutive batches of at most `B` items (the batches concatenate back to
the input); its whole output is the concatenation of the per-batch outputs
in batch order, so no Outcome of batch `i + 1` appears before every
Outcome of batch `i` (each per-batch output being exactly that batch's
fetches, in completion order); and in the timing model no task of batch
`i + 1` even starts until every task of batch `i` has finished. -/
theorem C9_batch_boundary_invariant (client : AsyncClient) (urls : List String)
    (bs : Nat) (hbs : 1 ≤ bs) :
    (chunks bs urls).flatten = urls
    ∧ (∀ b ∈ chunks bs urls, b.length ≤ bs)
    ∧ batch_http_gen client urls (bs : Int)
        = Except.ok ((chunks bs urls).map (batchOutput client)).flatten
    ∧ (∀ b ∈ chunks bs urls, (batchOutput client b).Perm
        (b.enum.map fun p => fetch_url client p.2 1))
    ∧ ∀ (i : Nat)
        (hi : i + 1 < (chunkTimings (batchDur client) 0 (chunks bs urls)).length)
        (p q : Nat × Nat),
        p ∈ (chunkTimings (batchDur client) 0 (chunks bs urls)).get ⟨i, by omega⟩ →
        q ∈ (chunkTimings (batchDur client) 0 (chunks bs urls)).get ⟨i + 1, hi⟩ →
        p.2 ≤ q.1 := by
  refine ⟨chunks_flatten hbs urls, chunks_sizes hbs urls, ?_, ?_, ?_⟩
  · have h := batch_http_gen_eq_chunks client urls
      (by omega : (1 : Int) ≤ (bs : Int))
    rwa [Int.toNat_natCast] at h
  · intro b _
    exact batchOutput_perm client b
  · intro i hi p q hp hq
    exact chunkTimings_consecutive (batchDur client) (chunks bs urls) 0 i hi p q hp hq

/-- Witness for C9: the batch run of `["a", "b", "c"]` with `B = 2` —
the chunks flatten back to the input and the generator's output is the
batch-wise concatenation. -/
theorem C9_witness :
    (chunks 2 ["a", "b", "c"]).flatten = ["a", "b", "c"]
    ∧ batch_http_gen c3client ["a", "b", "c"] (2 : Int)
        = Except.ok ((chunks 2 ["a", "b", "c"]).map (batchOutput c3client)).flatten :=
  ⟨(C9_batch_boundary_invariant c3client ["a", "b", "c"] 2 (by decide)).1,
   (C9_batch_boundary_invariant c3client ["a", "b", "c"] 2 (by decide)).2.2.1⟩
